import Mathlib

/-!
Verification of the request-signing module in `src/lib/crypto.ts`
(SHA-256 digest, base64url encoding, ECDSA P-256 signing and key-pair
generation built on the `elliptic` npm library).

The embedding is executable: machine words are `Nat` with explicit
`% 2 ^ 32` (SHA-256) and modular arithmetic over the P-256 field and
group orders.  Recursions use explicit fuel so that every definition
reduces in the kernel.
-/

deriving instance DecidableEq for Except

set_option maxRecDepth 1000000
set_option maxHeartbeats 4000000

namespace Crypto

/-! ## Byte and hex utilities -/

/-- Lowercase hexadecimal digit for a value `0..15` (as produced by
JavaScript `Number.prototype.toString(16)` and `BN.prototype.toString(16)`). -/
def hexDigitLower (n : Nat) : Char :=
  if n < 10 then Char.ofNat (48 + n) else Char.ofNat (87 + n)

/-- Uppercase hexadecimal digit for a value `0..15` (as produced by
JavaScript `encodeURIComponent` percent escapes). -/
def hexDigitUpper (n : Nat) : Char :=
  if n < 10 then Char.ofNat (48 + n) else Char.ofNat (55 + n)

/-- Two lowercase hex characters of one byte, zero padded
(`b.toString(16).padStart(2, "0")`). -/
def byteToHex (b : Nat) : List Char :=
  [hexDigitLower (b / 16 % 16), hexDigitLower (b % 16)]

/-- Lowercase hex string of a byte list. -/
def bytesToHex (bs : List Nat) : String :=
  String.mk (bs.flatMap byteToHex)

/-- Value of one hexadecimal character, `none` when the character is not a
hex digit.  Mirrors `bn.js` `parseHex4Bits`, which accepts `0-9a-fA-F` and
asserts on anything else. -/
def hexCharVal (c : Char) : Option Nat :=
  if 48 ≤ c.toNat ∧ c.toNat ≤ 57 then some (c.toNat - 48)
  else if 65 ≤ c.toNat ∧ c.toNat ≤ 70 then some (c.toNat - 55)
  else if 97 ≤ c.toNat ∧ c.toNat ≤ 102 then some (c.toNat - 87)
  else none

/-- Parse a hex string into a natural number, `none` on the first invalid
character.  Mirrors `new BN(str, 16)` from `bn.js` (which raises an
assertion on an invalid character). -/
def bnFromHexList : List Char → Nat → Option Nat
  | [], acc => some acc
  | c :: rest, acc =>
    match hexCharVal c with
    | some v => bnFromHexList rest (acc * 16 + v)
    | none => none

def bnFromHex (s : String) : Option Nat :=
  bnFromHexList s.data 0

/-- Hex digits of `n`, little endian, with explicit fuel (the fuel is
instantiated with `n` itself, which always suffices since `n / 16 < n`). -/
def natHexDigitsLE : Nat → Nat → List Nat
  | 0, _ => []
  | fuel + 1, n => if n = 0 then [] else n % 16 :: natHexDigitsLE fuel (n / 16)

/-- Minimal hex digit string of `n` (empty for `0`), most significant first. -/
def natHexMin (n : Nat) : List Char :=
  ((natHexDigitsLE n n).reverse).map hexDigitLower

/-- `BN.prototype.toString(16, 2)`: minimal lowercase hex, zero padded on the
left to an even number of characters, with `0` rendered as `"0"` before
padding. -/
def bnToHexEven (n : Nat) : String :=
  let ds := if n = 0 then ['0'] else natHexMin n
  let ds := if ds.length % 2 = 1 then '0' :: ds else ds
  String.mk ds

/-- Big-endian byte list of `n` with exactly `len` bytes
(`BN.prototype.toArray("be", len)` for values that fit). -/
def natToBytesBE : Nat → Nat → List Nat
  | 0, _ => []
  | len + 1, n => natToBytesBE len (n / 256) ++ [n % 256]

/-- Minimal big-endian byte list of `n` (`BN.prototype.toArray()`,
which yields `[0]` for zero). -/
def natToBytesMin (n : Nat) : List Nat :=
  if n = 0 then [0]
  else
    let ds := ((natHexDigitsLE n n).reverse)
    let ds := if ds.length % 2 = 1 then 0 :: ds else ds
    natBytesOfNibbles ds
where
  natBytesOfNibbles : List Nat → List Nat
    | hi :: lo :: rest => (hi * 16 + lo) :: natBytesOfNibbles rest
    | _ => []

/-- Big-endian value of a byte list (`new BN(bytes)`). -/
def bytesToNatBE (bs : List Nat) : Nat :=
  bs.foldl (fun acc b => acc * 256 + b) 0

/-- Bit length of `n` (`BN.prototype.bitLength`), with fuel. -/
def bitLenAux : Nat → Nat → Nat
  | 0, _ => 0
  | fuel + 1, n => if n = 0 then 0 else bitLenAux fuel (n / 2) + 1

def bitLen (n : Nat) : Nat := bitLenAux n n

/-- Byte length of `n` (`BN.prototype.byteLength`). -/
def byteLen (n : Nat) : Nat := (bitLen n + 7) / 8

/-! ## SHA-256 (the `crypto.subtle.digest("SHA-256", …)` call and the hash
used inside `elliptic`'s HMAC-DRBG) -/

def w32 : Nat := 4294967296

def rotr32 (n x : Nat) : Nat :=
  (x / 2 ^ n + x % 2 ^ n * 2 ^ (32 - n)) % w32

def shr32 (n x : Nat) : Nat := x / 2 ^ n

def xor32 (a b : Nat) : Nat := a ^^^ b
def and32 (a b : Nat) : Nat := a &&& b
def not32 (a : Nat) : Nat := 4294967295 - a

/-- The 64 SHA-256 round constants (decimal rendering of the FIPS 180-4
table). -/
def sha256K : List Nat :=
  [1116352408, 1899447441, 3049323471, 3921009573, 961987163,
   1508970993, 2453635748, 2870763221, 3624381080, 310598401,
   607225278, 1426881987, 1925078388, 2162078206, 2614888103,
   3248222580, 3835390401, 4022224774, 264347078, 604807628,
   770255983, 1249150122, 1555081692, 1996064986, 2554220882,
   2821834349, 2952996808, 3210313671, 3336571891, 3584528711,
   113926993, 338241895, 666307205, 773529912, 1294757372,
   1396182291, 1695183700, 1986661051, 2177026350, 2456956037,
   2730485921, 2820302411, 3259730800, 3345764771, 3516065817,
   3600352804, 4094571909, 275423344, 430227734, 506948616,
   659060556, 883997877, 958139571, 1322822218, 1537002063,
   1747873779, 1955562222, 2024104815, 2227730452, 2361852424,
   2428436474, 2756734187, 3204031479, 3329325298]

structure Sha256State where
  a : Nat
  b : Nat
  c : Nat
  d : Nat
  e : Nat
  f : Nat
  g : Nat
  h : Nat

/-- The eight initial hash words of SHA-256 (decimal rendering). -/
def sha256Init : Sha256State :=
  ⟨1779033703, 3144134277, 1013904242, 2773480762,
   1359893119, 2600822924, 528734635, 1541459225⟩

/-- Upper-case sigma-0 of the compression function. -/
def sigUpper0 (x : Nat) : Nat := xor32 (rotr32 2 x) (xor32 (rotr32 13 x) (rotr32 22 x))
/-- Upper-case sigma-1 of the compression function. -/
def sigUpper1 (x : Nat) : Nat := xor32 (rotr32 6 x) (xor32 (rotr32 11 x) (rotr32 25 x))
/-- Lower-case sigma-0 of the message schedule. -/
def sigLower0 (x : Nat) : Nat := xor32 (rotr32 7 x) (xor32 (rotr32 18 x) (shr32 3 x))
/-- Lower-case sigma-1 of the message schedule. -/
def sigLower1 (x : Nat) : Nat := xor32 (rotr32 17 x) (xor32 (rotr32 19 x) (shr32 10 x))

def chFn (x y z : Nat) : Nat := xor32 (and32 x y) (and32 (not32 x) z)
def majFn (x y z : Nat) : Nat := xor32 (and32 x y) (xor32 (and32 x z) (and32 y z))

/-- Extend the 16 message words to 64. -/
def sha256Extend : Nat → List Nat → List Nat
  | 0, ws => ws
  | fuel + 1, ws =>
    let t := ws.length
    let w := (sigLower1 (ws.getD (t - 2) 0) + ws.getD (t - 7) 0 +
              sigLower0 (ws.getD (t - 15) 0) + ws.getD (t - 16) 0) % w32
    sha256Extend fuel (ws ++ [w])

/-- One compression round. -/
def sha256Round (st : Sha256State) (kw : Nat) : Sha256State :=
  let t1 := (st.h + sigUpper1 st.e + chFn st.e st.f st.g + kw) % w32
  let t2 := (sigUpper0 st.a + majFn st.a st.b st.c) % w32
  ⟨(t1 + t2) % w32, st.a, st.b, st.c, (st.d + t1) % w32, st.e, st.f, st.g⟩

/-- Compress one 64-byte block (given as 16 words) into the state. -/
def sha256Compress (st : Sha256State) (ws : List Nat) : Sha256State :=
  let ws := sha256Extend 48 ws
  let e := (List.zipWith (fun k w => (k + w) % w32) sha256K ws).foldl sha256Round st
  ⟨(st.a + e.a) % w32, (st.b + e.b) % w32, (st.c + e.c) % w32, (st.d + e.d) % w32,
   (st.e + e.e) % w32, (st.f + e.f) % w32, (st.g + e.g) % w32, (st.h + e.h) % w32⟩

/-- Split a byte list into 32-bit big-endian words (length divisible by 4). -/
def bytesToWords : List Nat → List Nat
  | b0 :: b1 :: b2 :: b3 :: rest =>
    (b0 * 16777216 + b1 * 65536 + b2 * 256 + b3) :: bytesToWords rest
  | _ => []

def sha256BlocksAux : Nat → Sha256State → List Nat → Sha256State
  | 0, st, _ => st
  | fuel + 1, st, bs =>
    if bs.length < 64 then st
    else sha256BlocksAux fuel (sha256Compress st (bytesToWords (bs.take 64))) (bs.drop 64)

/-- Process the padded message block by block. -/
def sha256Blocks (st : Sha256State) (bs : List Nat) : Sha256State :=
  sha256BlocksAux (bs.length / 64 + 1) st bs

/-- SHA-256 padding: append `0x80`, zero bytes to 56 mod 64, then the
64-bit big-endian bit length. -/
def sha256Pad (msg : List Nat) : List Nat :=
  let l := msg.length
  let padLen := (64 - (l + 9) % 64) % 64
  msg ++ [128] ++ List.replicate padLen 0 ++ natToBytesBE 8 (l * 8)

def wordToBytes (w : Nat) : List Nat :=
  [w / 16777216 % 256, w / 65536 % 256, w / 256 % 256, w % 256]

/-- SHA-256 of a byte list, as 32 bytes. -/
def sha256Bytes (msg : List Nat) : List Nat :=
  let st := sha256Blocks sha256Init (sha256Pad msg)
  wordToBytes st.a ++ wordToBytes st.b ++ wordToBytes st.c ++ wordToBytes st.d ++
  wordToBytes st.e ++ wordToBytes st.f ++ wordToBytes st.g ++ wordToBytes st.h

/-! ## UTF-8 (`TextEncoder().encode`) -/

/-- UTF-8 encoding of one Unicode code point. -/
def utf8EncodeChar (c : Nat) : List Nat :=
  if c < 128 then [c]
  else if c < 2048 then [192 + c / 64, 128 + c % 64]
  else if c < 65536 then [224 + c / 4096, 128 + c / 64 % 64, 128 + c % 64]
  else [240 + c / 262144, 128 + c / 4096 % 64, 128 + c / 64 % 64, 128 + c % 64]

/-- UTF-8 bytes of a string (`new TextEncoder().encode(input)`). -/
def utf8Bytes (s : String) : List Nat :=
  s.data.flatMap (fun c => utf8EncodeChar c.toNat)

/-- `sha256` from `src/lib/crypto.ts`: UTF-8 encode, SHA-256, then render
each byte as two zero-padded lowercase hex characters. -/
def sha256hex (input : String) : String :=
  bytesToHex (sha256Bytes (utf8Bytes input))

/-! ## HMAC-SHA256 and HMAC-DRBG (the `hmac-drbg` package used by
`elliptic` for deterministic nonce generation) -/

def hmacSha256 (key msg : List Nat) : List Nat :=
  let key := if 64 < key.length then sha256Bytes key else key
  let key := key ++ List.replicate (64 - key.length) 0
  let ipad := key.map (fun b => b ^^^ 54)
  let opad := key.map (fun b => b ^^^ 92)
  sha256Bytes (opad ++ sha256Bytes (ipad ++ msg))

structure DrbgState where
  K : List Nat
  V : List Nat

/-- `HmacDRBG.prototype._update`. -/
def drbgUpdate (st : DrbgState) (seed : List Nat) : DrbgState :=
  let K1 := hmacSha256 st.K (st.V ++ [0] ++ seed)
  let V1 := hmacSha256 K1 st.V
  if seed = [] then ⟨K1, V1⟩
  else
    let K2 := hmacSha256 K1 (V1 ++ [1] ++ seed)
    let V2 := hmacSha256 K2 V1
    ⟨K2, V2⟩

/-- DRBG instantiation: `K = 0x00…`, `V = 0x01…`, then update with the
seed material (entropy ‖ nonce ‖ pers). -/
def drbgInit (seed : List Nat) : DrbgState :=
  drbgUpdate ⟨List.replicate 32 0, List.replicate 32 1⟩ seed

def drbgGenAux : Nat → Nat → List Nat → List Nat → List Nat → (List Nat × List Nat)
  | 0, _, _, v, temp => (temp, v)
  | fuel + 1, len, k, v, temp =>
    if len ≤ temp.length then (temp, v)
    else
      let v' := hmacSha256 k v
      drbgGenAux fuel len k v' (temp ++ v')

/-- `HmacDRBG.prototype.generate` (with no additional data): stream HMAC
outputs until `len` bytes are available, then update the state. -/
def drbgGenerate (st : DrbgState) (len : Nat) : (List Nat × DrbgState) :=
  let (temp, v) := drbgGenAux (len / 32 + 1) len st.K st.V []
  (temp.take len, drbgUpdate ⟨st.K, v⟩ [])

/-! ## The P-256 curve (`new EC("p256")`) -/

def pP : Nat := 0xffffffff00000001000000000000000000000000ffffffffffffffffffffffff
def nOrder : Nat := 0xffffffff00000000ffffffffffffffffbce6faada7179e84f3b9cac2fc632551
def aCoef : Nat := pP - 3
def bCoef : Nat := 0x5ac635d8aa3a93e7b3ebbd55769886bc651d06b0cc53b0f63bce3c3e27d2604b
def gXc : Nat := 0x6b17d1f2e12c4247f8bce6e563a440f277037d812deb33a0f4a13945d898c296
def gYc : Nat := 0x4fe342e2fe1a7f9b8ee7eb4a7c0f9e162bce33576b315ececbb6406837bf51f5

def fadd (a b : Nat) : Nat := (a + b) % pP
def fmul (a b : Nat) : Nat := a * b % pP
def fsub (a b : Nat) : Nat := (a + pP - b % pP) % pP

def powModAux : Nat → Nat → Nat → Nat → Nat
  | 0, _, _, m => 1 % m
  | fuel + 1, x, e, m =>
    if e = 0 then 1 % m
    else
      let r := powModAux fuel (x * x % m) (e / 2) m
      if e % 2 = 1 then r * x % m else r

/-- `x ^ e % m` by binary exponentiation (fuel `e` always suffices). -/
def powMod (x e m : Nat) : Nat := powModAux e x e m

/-- A point in Jacobian projective coordinates; `z = 0` is the point at
infinity. -/
structure JPoint where
  x : Nat
  y : Nat
  z : Nat

def jInf : JPoint := ⟨1, 1, 0⟩

def jDouble (P : JPoint) : JPoint :=
  if P.z = 0 then P
  else if P.y = 0 then jInf
  else
    let ysq := fmul P.y P.y
    let S := fmul 4 (fmul P.x ysq)
    let Z2 := fmul P.z P.z
    let M := fadd (fmul 3 (fmul P.x P.x)) (fmul aCoef (fmul Z2 Z2))
    let X3 := fsub (fmul M M) (fmul 2 S)
    let Y3 := fsub (fmul M (fsub S X3)) (fmul 8 (fmul ysq ysq))
    let Z3 := fmul 2 (fmul P.y P.z)
    ⟨X3, Y3, Z3⟩

def jAdd (P Q : JPoint) : JPoint :=
  if P.z = 0 then Q
  else if Q.z = 0 then P
  else
    let Z1Z1 := fmul P.z P.z
    let Z2Z2 := fmul Q.z Q.z
    let U1 := fmul P.x Z2Z2
    let U2 := fmul Q.x Z1Z1
    let S1 := fmul P.y (fmul Z2Z2 Q.z)
    let S2 := fmul Q.y (fmul Z1Z1 P.z)
    if U1 = U2 then
      if S1 = S2 then jDouble P else jInf
    else
      let H := fsub U2 U1
      let R := fsub S2 S1
      let H2 := fmul H H
      let H3 := fmul H H2
      let X3 := fsub (fsub (fmul R R) H3) (fmul 2 (fmul U1 H2))
      let Y3 := fsub (fmul R (fsub (fmul U1 H2) X3)) (fmul S1 H3)
      let Z3 := fmul H (fmul P.z Q.z)
      ⟨X3, Y3, Z3⟩

def scalarMulAux : Nat → Nat → JPoint → JPoint
  | 0, _, _ => jInf
  | fuel + 1, k, P =>
    if k = 0 then jInf
    else
      let Q := scalarMulAux fuel (k / 2) P
      let D := jDouble Q
      if k % 2 = 1 then jAdd D P else D

/-- `[k]P` by double-and-add (fuel `k` always suffices since the scalar is
halved at every step). -/
def scalarMul (k : Nat) (P : JPoint) : JPoint := scalarMulAux k k P

def pG : JPoint := ⟨gXc, gYc, 1⟩

/-- Affine coordinates of a Jacobian point; `none` for infinity. -/
def jToAffine (P : JPoint) : Option (Nat × Nat) :=
  if P.z = 0 then none
  else
    let zi := powMod P.z (pP - 2) pP
    let zi2 := fmul zi zi
    some (fmul P.x zi2, fmul P.y (fmul zi2 zi))

/-- Compressed SEC1 encoding as lowercase hex: one parity byte `0x02`/`0x03`
followed by the 32-byte big-endian x coordinate
(`point.encode(true)` in `elliptic`, 66 hex characters). -/
def encodeCompressed (x y : Nat) : String :=
  bytesToHex ((if y % 2 = 0 then [2] else [3]) ++ natToBytesBE 32 x)

/-- `key.getPublic(true, "hex")`: the compressed hex form of `[d]G`;
`none` when the multiple is the point at infinity (which `elliptic`
cannot encode). -/
def derivedPubHexOf (d : Nat) : Option String :=
  (jToAffine (scalarMul d pG)).map (fun q => encodeCompressed q.1 q.2)

/-! ## ECDSA signing (`EC.prototype.sign` with `canonical: true`) -/

/-- `EC.prototype._truncateToN`: drop excess low-order bits beyond the
256-bit order size and, unless `truncOnly`, subtract the order once if
still not below it. -/
def truncateToN (m : Nat) (truncOnly : Bool) : Nat :=
  let m := if 256 < byteLen m * 8 then m / 2 ^ (byteLen m * 8 - 256) else m
  if !truncOnly ∧ nOrder ≤ m then m - nOrder else m

def ecSignLoop : Nat → Nat → Nat → DrbgState → Option (Nat × Nat)
  | 0, _, _, _ => none
  | fuel + 1, d, m, drbg =>
    let gen := drbgGenerate drbg 32
    let drbg' := gen.2
    let k := truncateToN (bytesToNatBE gen.1) true
    if k ≤ 1 ∨ nOrder - 1 ≤ k then ecSignLoop fuel d m drbg'
    else
      match jToAffine (scalarMul k pG) with
      | none => ecSignLoop fuel d m drbg'
      | some q =>
        let r := q.1 % nOrder
        if r = 0 then ecSignLoop fuel d m drbg'
        else
          let kinv := powMod k (nOrder - 2) nOrder
          let s := kinv * (r * d + m) % nOrder
          if s = 0 then ecSignLoop fuel d m drbg'
          else
            let s := if nOrder / 2 < s then nOrder - s else s
            some (r, s)

/-- `key.sign(hashHex, { canonical: true })`: parse and truncate the digest,
seed the HMAC-DRBG with the 32-byte key and message, then run the
rejection-sampling loop.  The fuel bounds the retries (the source loops
without bound; the first candidate nonce is essentially always accepted). -/
def ecSign (d : Nat) (hashHex : String) : Option (Nat × Nat) :=
  match bnFromHex hashHex with
  | none => none
  | some m0 =>
    let m := truncateToN m0 false
    let bkey := natToBytesBE 32 d
    let nonce := natToBytesBE 32 m
    ecSignLoop 64 d m (drbgInit (bkey ++ nonce))

/-! ## DER encoding (`Signature.prototype.toDER("hex")`) -/

/-- Minimal big-endian integer bytes with a leading `0x00` when the top bit
is set (DER positive-integer convention). -/
def derInt (x : Nat) : List Nat :=
  let bs := natToBytesMin x
  if 128 ≤ bs.headD 0 then 0 :: bs else bs

/-- DER length octets (`constructLength`; the long form is unreachable for
P-256 signatures, whose payload is at most 70 bytes). -/
def derLenBytes (l : Nat) : List Nat :=
  if l < 128 then [l]
  else
    let obs := natToBytesMin l
    (128 + obs.length) :: obs

def sigToDERHex (r s : Nat) : String :=
  let rb := derInt r
  let sb := derInt s
  let content := [2] ++ derLenBytes rb.length ++ rb ++ [2] ++ derLenBytes sb.length ++ sb
  bytesToHex ([48] ++ derLenBytes content.length ++ content)

/-! ## Base64 and base64url (`btoa` plus the regex substitutions in
`toBase64Url` / `toBase64UrlBytes`) -/

def base64Table : List Char :=
  "ABCDEFGHIJKLMNOPQRSTUVWXYZabcdefghijklmnopqrstuvwxyz0123456789+/".data

def b64Char (n : Nat) : Char := base64Table.getD n 'A'

/-- RFC 4648 base64 of a byte list (the semantics of `btoa` on a string of
char codes below 256; codes 256 and above would make `btoa` throw and are
proved unreachable at both call sites). -/
def base64EncodeList : List Nat → List Char
  | [] => []
  | [b1] => [b64Char (b1 / 4), b64Char (b1 % 4 * 16), '=', '=']
  | [b1, b2] => [b64Char (b1 / 4), b64Char (b1 % 4 * 16 + b2 / 16), b64Char (b2 % 16 * 4), '=']
  | b1 :: b2 :: b3 :: rest =>
    b64Char (b1 / 4) :: b64Char (b1 % 4 * 16 + b2 / 16) ::
    b64Char (b2 % 16 * 4 + b3 / 64) :: b64Char (b3 % 64) :: base64EncodeList rest

/-- `.replace(/\x5c+/g, "-").replace(/\x5c//g, "_")` character map. -/
def b64UrlSubst (c : Char) : Char :=
  if c = '+' then '-' else if c = '/' then '_' else c

/-- `.replace(/=+$/, "")`: drop every trailing `=`. -/
def stripTrailingEq (l : List Char) : List Char :=
  (l.reverse.dropWhile (fun c => c = '=')).reverse

/-- `toBase64UrlBytes` from `src/lib/crypto.ts`: build the char-code string
of the buffer, `btoa` it, substitute the URL-safe alphabet and strip the
padding. -/
def toBase64UrlBytes (bytes : List Nat) : String :=
  String.mk (stripTrailingEq ((base64EncodeList bytes).map b64UrlSubst))

/-! ## `encodeURIComponent` / `unescape` (the classic UTF-8 trick inside
`toBase64Url`) -/

/-- Characters `encodeURIComponent` leaves intact:
`A-Z a-z 0-9 - _ . ! ~ * ( )` and the apostrophe (code 39). -/
def uriUnreserved (c : Char) : Bool :=
  (65 ≤ c.toNat && c.toNat ≤ 90) || (97 ≤ c.toNat && c.toNat ≤ 122) ||
  (48 ≤ c.toNat && c.toNat ≤ 57) ||
  (c.toNat == 45) || (c.toNat == 95) || (c.toNat == 46) || (c.toNat == 33) ||
  (c.toNat == 126) || (c.toNat == 42) || (c.toNat == 39) || (c.toNat == 40) ||
  (c.toNat == 41)

/-- `encodeURIComponent`, one character: unreserved characters pass through,
anything else becomes `%XX` (uppercase hex) per UTF-8 byte. -/
def encodeURIComponentChar (c : Char) : List Char :=
  if uriUnreserved c then [c]
  else (utf8EncodeChar c.toNat).flatMap
    (fun b => ['%', hexDigitUpper (b / 16 % 16), hexDigitUpper (b % 16)])

def encodeURIComponentChars (s : List Char) : List Char :=
  s.flatMap encodeURIComponentChar

def isHexDigitChar (c : Char) : Bool := (hexCharVal c).isSome

def hexValD (c : Char) : Nat := (hexCharVal c).getD 0

/-- JavaScript `unescape` (ECMA-262 B.2.1.2): decode `%uXXXX` and `%XX`
sequences, leaving malformed escapes in place. -/
def unescapeChars : List Char → List Char
  | [] => []
  | '%' :: 'u' :: a :: b :: c :: d :: rest =>
    if isHexDigitChar a && isHexDigitChar b && isHexDigitChar c && isHexDigitChar d then
      Char.ofNat (hexValD a * 4096 + hexValD b * 256 + hexValD c * 16 + hexValD d) ::
        unescapeChars rest
    else '%' :: unescapeChars ('u' :: a :: b :: c :: d :: rest)
  | '%' :: a :: b :: rest =>
    if isHexDigitChar a && isHexDigitChar b then
      Char.ofNat (hexValD a * 16 + hexValD b) :: unescapeChars rest
    else '%' :: unescapeChars (a :: b :: rest)
  | c :: rest => c :: unescapeChars rest

/-- `toBase64Url` from `src/lib/crypto.ts`:
`btoa(unescape(encodeURIComponent(str)))` with the URL-safe substitutions
and padding strip. -/
def toBase64Url (str : String) : String :=
  let latin1 := unescapeChars (encodeURIComponentChars str.data)
  String.mk (stripTrailingEq ((base64EncodeList (latin1.map Char.toNat)).map b64UrlSubst))

/-! ## `JSON.stringify` of the stamp object -/

/-- `JSON.stringify` escaping of one character inside a string literal. -/
def jsonEscapeChar (c : Char) : List Char :=
  if c = '"' then ['\\', '"']
  else if c = '\\' then ['\\', '\\']
  else if c.toNat = 8 then ['\\', 'b']
  else if c.toNat = 9 then ['\\', 't']
  else if c.toNat = 10 then ['\\', 'n']
  else if c.toNat = 12 then ['\\', 'f']
  else if c.toNat = 13 then ['\\', 'r']
  else if c.toNat < 32 then
    ['\\', 'u', '0', '0', hexDigitLower (c.toNat / 16), hexDigitLower (c.toNat % 16)]
  else [c]

def jsonQuote (s : String) : String :=
  "\"" ++ String.mk (s.data.flatMap jsonEscapeChar) ++ "\""

def schemeString : String := "SIGNATURE_SCHEME_TK_API_P256"

/-- `JSON.stringify(stampObj)` for the object literal
`\x7b publicKey, scheme, signature \x7d` — `JSON.stringify` emits the keys
in insertion order, so the serialization has a stable key ordering. -/
def stringifyStamp (pub der : String) : String :=
  "\x7b\"publicKey\":" ++ jsonQuote pub ++ ",\"scheme\":" ++ jsonQuote schemeString ++
    ",\"signature\":" ++ jsonQuote der ++ "\x7d"

/-! ## The two exported operations -/

structure SignDetails where
  publicKey : String
  scheme : String
  signature : String
  payloadHash : String
deriving DecidableEq

structure SignResult where
  signature : String
  details : SignDetails
deriving DecidableEq

/-- The `KeyMismatch` error message thrown at line 61 of
`src/lib/crypto.ts`; it reports both the derived and the received key. -/
def keyMismatchMsg (expected got : String) : String :=
  "Public key does not match private key. Expected: " ++ expected ++ ", Got: " ++ got

/-- The `InvalidKeyMaterial` error message thrown at line 50 of
`src/lib/crypto.ts`. -/
def invalidKeyMsg : String := "API key pair not found"

/-- The assertion message `bn.js` raises when `keyFromPrivate` meets a
non-hexadecimal character. -/
def invalidHexMsg (s : String) : String := "Invalid character in " ++ s

/-- Stand-in for the exception `elliptic` raises when asked to encode the
point at infinity (private key ≡ 0 mod n); the exact text is internal to
the library, only its distinctness matters here. -/
def infinityEncodeMsg : String := "Invalid point encoding"

/-- Stand-in for exhaustion of the nonce rejection-sampling loop, which the
source runs without bound (never reached in practice). -/
def signingFailMsg : String := "Signing failure"

/-- `signPayloadWithApiKey` from `src/lib/crypto.ts`.  Thrown `Error`s are
modelled as `Except.error` carrying the message string. -/
def signPayloadWithApiKey (payload apiPrivateKey apiPublicKey : String) :
    Except String SignResult :=
  if apiPrivateKey = "" ∨ apiPublicKey = "" then .error invalidKeyMsg
  else
    match bnFromHex apiPrivateKey with
    | none => .error (invalidHexMsg apiPrivateKey)
    | some priv0 =>
      let d := priv0 % nOrder
      match derivedPubHexOf d with
      | none => .error infinityEncodeMsg
      | some derivedPubHex =>
        if derivedPubHex ≠ apiPublicKey then
          .error (keyMismatchMsg derivedPubHex apiPublicKey)
        else
          let hashHex := sha256hex payload
          match ecSign d hashHex with
          | none => .error signingFailMsg
          | some rs =>
            let derHex := sigToDERHex rs.1 rs.2
            let signature := toBase64Url (stringifyStamp apiPublicKey derHex)
            .ok ⟨signature, ⟨apiPublicKey, schemeString, derHex, hashHex⟩⟩

structure ApiKeyPair where
  publicKey : String
  privateKey : String
deriving DecidableEq

def genKeyPairAux : Nat → List Nat → Option ApiKeyPair
  | 0, _ => none
  | fuel + 1, rand =>
    if rand.length < 32 then none
    else
      let cand := bytesToNatBE (rand.take 32)
      if nOrder - 2 < cand then genKeyPairAux fuel (rand.drop 32)
      else
        let d := cand + 1
        (derivedPubHexOf d).map (fun pub => ⟨pub, bnToHexEven d⟩)

/-- `generateApiKeyPair` from `src/lib/crypto.ts` (`ec.genKeyPair()` then
compressed-hex public key and hex private key).  The cryptographically
secure random source is modelled as the stream `rand` of bytes it delivers
to the generation loop: each attempt draws 32 bytes as a private-key
candidate, rejects values above `n - 2`, and otherwise uses candidate + 1,
exactly as `elliptic`'s `genKeyPair` rejection loop does with its DRBG
output.  `none` means the stream ran out. -/
def generateApiKeyPair (rand : List Nat) : Option ApiKeyPair :=
  genKeyPairAux (rand.length / 32 + 1) rand

/-! ## Base64url decoding (spec §4.3, "and its inverse") -/

/-- Index of a character in the standard base64 alphabet (0 for characters
outside it; decoding is only ever applied to well-formed input here). -/
def b64Value (c : Char) : Nat :=
  if 65 ≤ c.toNat ∧ c.toNat ≤ 90 then c.toNat - 65
  else if 97 ≤ c.toNat ∧ c.toNat ≤ 122 then c.toNat - 71
  else if 48 ≤ c.toNat ∧ c.toNat ≤ 57 then c.toNat + 4
  else if c = '+' then 62
  else if c = '/' then 63
  else 0

/-- Standard base64 decoding of padded 4-character groups. -/
def base64DecodeList : List Char → List Nat
  | c1 :: c2 :: c3 :: c4 :: rest =>
    if c3 = '=' then [b64Value c1 * 4 + b64Value c2 / 16]
    else if c4 = '=' then
      [b64Value c1 * 4 + b64Value c2 / 16, b64Value c2 % 16 * 16 + b64Value c3 / 4]
    else
      (b64Value c1 * 4 + b64Value c2 / 16) :: (b64Value c2 % 16 * 16 + b64Value c3 / 4) ::
        (b64Value c3 % 4 * 64 + b64Value c4) :: base64DecodeList rest
  | _ => []

/-- Inverse character map of `b64UrlSubst`: restore `+` from `-` and the
slash from `_`. -/
def b64UrlUnsubst (c : Char) : Char :=
  if c = '-' then '+' else if c = '_' then '/' else c

/-- Modelled from the spec: the inverse of the base64url encoding.  The
decoder itself is not present in `src/lib/crypto.ts` (spec §4.3 specifies
`encode_base64url(bytes) -> text` "and its inverse"): restore the standard
base64 alphabet, tolerate the absence of padding by padding with `=` to a
multiple of four internally, then decode standard base64. -/
def fromBase64Url (s : String) : List Nat :=
  let cs := s.data.map b64UrlUnsubst
  base64DecodeList (cs ++ List.replicate ((4 - cs.length % 4) % 4) '=')

/-! ## Concrete values used by the witnesses -/

/-- The compressed public key of the scalar 1 (the base point `G`). -/
def gPubHex : String :=
  "036b17d1f2e12c4247f8bce6e563a440f277037d812deb33a0f4a13945d898c296"

/-- The result of `signPayloadWithApiKey "hello" "01" gPubHex` (checked
against the definition by `decide` in the witnesses that use it). -/
def helloSignResult : SignResult :=
  ⟨"eyJwdWJsaWNLZXkiOiIwMzZiMTdkMWYyZTEyYzQyNDdmOGJjZTZlNTYzYTQ0MGYyNzcwMzdkODEyZGViMzNhMGY0YTEzOTQ1ZDg5OGMyOTYiLCJzY2hlbWUiOiJTSUdOQVRVUkVfU0NIRU1FX1RLX0FQSV9QMjU2Iiwic2lnbmF0dXJlIjoiMzA0NTAyMjEwMGZlNDg1Y2YwOTA1NmRiM2ZlYzQ0NTQwY2UwNmE5YWJmOGFjMTQ5OGQ1Y2FlMmZhNWMzNjUxOWFmYWZmOTg0ODcwMjIwNDQ4ZmNkNzY3ZGZlZWUwODk0MDMxN2QxZTAxZDQyOTZiOWJkMzIzNjI5NzcxZDExOGVhMTA2NzRkYmI0Nzc1NSJ9",
   ⟨"036b17d1f2e12c4247f8bce6e563a440f277037d812deb33a0f4a13945d898c296",
    "SIGNATURE_SCHEME_TK_API_P256",
    "3045022100fe485cf09056db3fec44540ce06a9abf8ac1498d5cae2fa5c36519afaff984870220448fcd767dfeee08940317d1e01d4296b9bd323629771d118ea10674dbb47755",
    "2cf24dba5fb0a30e26e83b2ac5b9e29e1b161e5c1fa7425e73043362938b9824"⟩⟩

/-! # Lemmas and claim theorems -/

/-- A lowercase hexadecimal character (`0-9` or `a-f`). -/
def isLowerHexChar (c : Char) : Bool :=
  (48 ≤ c.toNat && c.toNat ≤ 57) || (97 ≤ c.toNat && c.toNat ≤ 102)

lemma hexDigitLower_isLowerHex : ∀ d < 16, isLowerHexChar (hexDigitLower d) = true := by
  decide

lemma byteToHex_isLowerHex (b : Nat) : ∀ c ∈ byteToHex b, isLowerHexChar c = true := by
  intro c hc
  simp only [byteToHex, List.mem_cons, List.not_mem_nil, or_false] at hc
  rcases hc with h | h <;> subst h <;>
    exact hexDigitLower_isLowerHex _ (Nat.mod_lt _ (by omega))

lemma bytesToHex_data (bs : List Nat) : (bytesToHex bs).data = bs.flatMap byteToHex := rfl

lemma bytesToHex_isLowerHex (bs : List Nat) :
    ∀ c ∈ (bytesToHex bs).data, isLowerHexChar c = true := by
  intro c hc
  rw [bytesToHex] at hc
  simp only [List.mem_flatMap] at hc
  obtain ⟨b, _, hb⟩ := hc
  exact byteToHex_isLowerHex b c hb

lemma length_flatMap_byteToHex (bs : List Nat) :
    (bs.flatMap byteToHex).length = 2 * bs.length := by
  induction bs with
  | nil => rfl
  | cons b rest ih =>
    simp only [List.flatMap_cons, List.length_append, ih, byteToHex, List.length_cons,
      List.length_nil]
    omega

lemma bytesToHex_length (bs : List Nat) : (bytesToHex bs).length = 2 * bs.length :=
  length_flatMap_byteToHex bs

lemma sha256Bytes_length (msg : List Nat) : (sha256Bytes msg).length = 32 := by
  simp [sha256Bytes, wordToBytes]

/-- C3, universal part plus the concrete vector from the spec's happy-path
scenario. -/
theorem digest_contract :
    (∀ s : String, (sha256hex s).length = 64 ∧
      ∀ c ∈ (sha256hex s).data, isLowerHexChar c = true) ∧
    sha256hex "hello" =
      "2cf24dba5fb0a30e26e83b2ac5b9e29e1b161e5c1fa7425e73043362938b9824" := by
  refine ⟨fun s => ⟨?_, bytesToHex_isLowerHex _⟩, by decide⟩
  show (bytesToHex (sha256Bytes (utf8Bytes s))).length = 64
  rw [bytesToHex_length, sha256Bytes_length]

/-- Witness for `digest_contract`: its membership hypothesis discharged at a
concrete digest character. -/
theorem digest_contract_witness : isLowerHexChar '2' = true :=
  (digest_contract.1 "hello").2 '2' (by decide)

/-! ## String-head helpers for distinguishing the error messages -/

lemma data_head?_append (p q : String) (c : Char) (h : p.data.head? = some c) :
    (p ++ q).data.head? = some c := by
  rw [String.data_append]
  cases hp : p.data with
  | nil => rw [hp] at h; cases h
  | cons a as =>
    rw [hp] at h
    simpa using h

lemma ne_of_data_head? (s q : String) (c c' : Char) (h1 : s.data.head? = some c)
    (h2 : q.data.head? = some c') (hne : c ≠ c') : s ≠ q := by
  intro heq
  rw [heq, h2] at h1
  exact hne (Option.some.inj h1).symm

lemma invalidHexMsg_ne_invalidKeyMsg (s : String) : invalidHexMsg s ≠ invalidKeyMsg := by
  refine ne_of_data_head? _ _ 'I' 'A' ?_ (by decide) (by decide)
  exact data_head?_append _ _ _ (by decide)

lemma keyMismatchMsg_ne_invalidKeyMsg (a b : String) :
    keyMismatchMsg a b ≠ invalidKeyMsg := by
  refine ne_of_data_head? _ _ 'P' 'A' ?_ (by decide) (by decide)
  exact data_head?_append _ _ _
    (data_head?_append _ _ _ (data_head?_append _ _ _ (by decide)))

/-- C1: with non-empty keys whose derived compressed public key differs from
the supplied one, signing fails with the key-mismatch error that reports
both the expected (derived) and the received value, and no signature is
produced (the call returns an error, not a result). -/
theorem sign_mismatch_rejected (payload priv pub : String) (k : Nat) (d : String)
    (hpriv : priv ≠ "") (hpub : pub ≠ "")
    (hk : bnFromHex priv = some k)
    (hd : derivedPubHexOf (k % nOrder) = some d)
    (hne : d ≠ pub) :
    signPayloadWithApiKey payload priv pub =
      .error ("Public key does not match private key. Expected: " ++ d ++
        ", Got: " ++ pub) := by
  rw [signPayloadWithApiKey, if_neg (by simp [hpriv, hpub]), hk]
  show (match derivedPubHexOf (k % nOrder) with
    | none => Except.error infinityEncodeMsg
    | some derivedPubHex => _) = _
  rw [hd]
  show (if d ≠ pub then _ else _) = _
  rw [if_pos hne]
  rfl

/-- C10: `signPayloadWithApiKey` is deterministic — two calls on identical
inputs return identical transport signatures and identical details records.
The embedding is a pure function of `(payload, priv, pub)` because the
source consumes no randomness on the signing path: `elliptic` derives the
ECDSA nonce with an HMAC-DRBG seeded only from the private key bytes and
the truncated digest (`drbgInit (bkey ++ nonce)` in `ecSign`, mirroring
`ec.sign`), RFC 6979 style, never from a fresh entropy source. -/
theorem sign_deterministic (payload priv pub : String) (r1 r2 : SignResult)
    (h1 : signPayloadWithApiKey payload priv pub = .ok r1)
    (h2 : signPayloadWithApiKey payload priv pub = .ok r2) :
    r1.signature = r2.signature ∧ r1.details = r2.details := by
  rw [h1] at h2
  cases h2
  exact ⟨rfl, rfl⟩

/-- C6 (amended): the `InvalidKeyMaterial` guard ("API key pair not found")
fires exactly when one of the key strings is empty — emptiness is the only
precondition the code checks. -/
theorem sign_empty_key_guard (payload priv pub : String) :
    signPayloadWithApiKey payload priv pub = .error "API key pair not found" ↔
      priv = "" ∨ pub = "" := by
  constructor
  · intro h
    by_contra hne
    push_neg at hne
    rw [signPayloadWithApiKey, if_neg (by simp [hne.1, hne.2])] at h
    split at h
    · exact invalidHexMsg_ne_invalidKeyMsg _ (Except.error.inj h)
    · dsimp only at h
      split at h
      · exact absurd (Except.error.inj h) (by decide)
      · split at h
        · exact keyMismatchMsg_ne_invalidKeyMsg _ _ (Except.error.inj h)
        · split at h
          · exact absurd (Except.error.inj h) (by decide)
          · cases h
  · intro h
    rw [signPayloadWithApiKey, if_pos h]
    rfl

/-- Witness for `sign_empty_key_guard` at a concrete empty-key call. -/
theorem sign_empty_key_guard_witness :
    signPayloadWithApiKey "x" "" "0abc" = .error "API key pair not found" :=
  (sign_empty_key_guard "x" "" "0abc").mpr (Or.inl rfl)

/-- Counterexample to C6 as stated: `"11"` is a wrong-length (2 instead of
64 characters) private key, yet the call does not fail with the
`InvalidKeyMaterial` error — the only precondition the code checks is
non-emptiness, so the malformed key flows into derivation and surfaces as a
key mismatch instead. -/
theorem sign_wrong_length_key_counterexample :
    signPayloadWithApiKey "x" "11" "00" =
      .error ("Public key does not match private key. Expected: " ++
        "0247776904c0f1cc3a9c0984b66f75301a5fa68678f0d64af8ba1abce34738a73e" ++
        ", Got: " ++ "00") ∧
    signPayloadWithApiKey "x" "11" "00" ≠ .error "API key pair not found" := by
  constructor
  · decide
  · decide

/-- Witness for `sign_mismatch_rejected` at a concrete mismatched pair. -/
theorem sign_mismatch_rejected_witness :
    signPayloadWithApiKey "x" "01" "0300" =
      .error ("Public key does not match private key. Expected: " ++
        "036b17d1f2e12c4247f8bce6e563a440f277037d812deb33a0f4a13945d898c296" ++
        ", Got: " ++ "0300") :=
  sign_mismatch_rejected "x" "01" "0300" 1
    "036b17d1f2e12c4247f8bce6e563a440f277037d812deb33a0f4a13945d898c296"
    (by decide) (by decide) (by decide) (by decide) (by decide)

/-! ## Hex digit and round-trip lemmas (key-pair generation) -/

lemma natToBytesBE_length (len : Nat) : ∀ n, (natToBytesBE len n).length = len := by
  induction len with
  | zero => intro n; rfl
  | succ len ih =>
    intro n
    simp [natToBytesBE, ih]

lemma natHexDigitsLE_lt (fuel : Nat) : ∀ n, ∀ v ∈ natHexDigitsLE fuel n, v < 16 := by
  induction fuel with
  | zero => intro n v hv; cases hv
  | succ fuel ih =>
    intro n v hv
    rw [natHexDigitsLE] at hv
    split at hv
    · cases hv
    · rcases List.mem_cons.mp hv with h | h
      · subst h; exact Nat.mod_lt _ (by omega)
      · exact ih _ v h

lemma natHexDigitsLE_length_le (fuel : Nat) :
    ∀ n m, n < 16 ^ m → (natHexDigitsLE fuel n).length ≤ m := by
  induction fuel with
  | zero => intro n m _; simp [natHexDigitsLE]
  | succ fuel ih =>
    intro n m hm
    rw [natHexDigitsLE]
    split
    · simp
    · match m with
      | 0 => omega
      | m + 1 =>
        have hm' : n < 16 * 16 ^ m := by rw [pow_succ] at hm; omega
        have : n / 16 < 16 ^ m := Nat.div_lt_of_lt_mul hm'
        simpa using ih (n / 16) m this

lemma natHexDigitsLE_val (fuel : Nat) :
    ∀ n, n ≤ fuel → ∀ acc,
      (natHexDigitsLE fuel n).reverse.foldl (fun a v => a * 16 + v) acc =
        acc * 16 ^ (natHexDigitsLE fuel n).length + n := by
  induction fuel with
  | zero => intro n hn acc; interval_cases n; simp [natHexDigitsLE]
  | succ fuel ih =>
    intro n hn acc
    rw [natHexDigitsLE]
    split
    · simp; omega
    · rename_i hne
      have hdiv : n / 16 ≤ fuel := by omega
      simp only [List.reverse_cons, List.foldl_append, List.foldl_cons, List.foldl_nil,
        List.length_cons]
      rw [ih (n / 16) hdiv acc]
      have h16 : n / 16 * 16 + n % 16 = n := by omega
      calc (acc * 16 ^ (natHexDigitsLE fuel (n / 16)).length + n / 16) * 16 + n % 16
          = acc * (16 ^ (natHexDigitsLE fuel (n / 16)).length * 16) +
              (n / 16 * 16 + n % 16) := by ring
        _ = acc * 16 ^ ((natHexDigitsLE fuel (n / 16)).length + 1) + n := by
              rw [h16, pow_succ]

lemma hexCharVal_hexDigitLower : ∀ v < 16, hexCharVal (hexDigitLower v) = some v := by
  decide

lemma bnFromHexList_lower (ds : List Nat) (hds : ∀ v ∈ ds, v < 16) :
    ∀ acc, bnFromHexList (ds.map hexDigitLower) acc =
      some (ds.foldl (fun a v => a * 16 + v) acc) := by
  induction ds with
  | nil => intro acc; rfl
  | cons v ds ih =>
    intro acc
    rw [List.map_cons, bnFromHexList,
      hexCharVal_hexDigitLower v (hds v (List.mem_cons_self _ _))]
    exact ih (fun u hu => hds u (List.mem_cons_of_mem _ hu)) _

lemma bnFromHex_bnToHexEven (d : Nat) : bnFromHex (bnToHexEven d) = some d := by
  by_cases hd : d = 0
  · subst hd; decide
  · have hlt : ∀ v ∈ (natHexDigitsLE d d).reverse, v < 16 := by
      intro v hv
      exact natHexDigitsLE_lt d d v (List.mem_reverse.mp hv)
    have hval : (natHexDigitsLE d d).reverse.foldl (fun a v => a * 16 + v) 0 = d := by
      rw [natHexDigitsLE_val d d le_rfl 0]; simp
    rw [bnToHexEven]
    simp only [hd, if_false]
    rw [natHexMin]
    split
    · -- odd length: a '0' character is prepended
      show bnFromHexList ('0' :: (natHexDigitsLE d d).reverse.map hexDigitLower) 0 = some d
      rw [bnFromHexList]
      show bnFromHexList ((natHexDigitsLE d d).reverse.map hexDigitLower) 0 = some d
      rw [bnFromHexList_lower _ hlt 0, hval]
    · show bnFromHexList ((natHexDigitsLE d d).reverse.map hexDigitLower) 0 = some d
      rw [bnFromHexList_lower _ hlt 0, hval]

lemma derivedPubHexOf_shape (d : Nat) (s : String) (h : derivedPubHexOf d = some s) :
    s.length = 66 ∧
    (s.data.take 2 = ['0', '2'] ∨ s.data.take 2 = ['0', '3']) ∧
    ∀ c ∈ s.data, isLowerHexChar c = true := by
  rw [derivedPubHexOf] at h
  obtain ⟨q, _, hs⟩ := Option.map_eq_some'.mp h
  subst hs
  refine ⟨?_, ?_, bytesToHex_isLowerHex _⟩
  · rw [encodeCompressed, bytesToHex_length]
    split <;> simp [natToBytesBE_length]
  · by_cases hpar : q.2 % 2 = 0
    · left
      rw [encodeCompressed, if_pos hpar, bytesToHex_data, List.flatMap_append,
        show ([2] : List Nat).flatMap byteToHex = ['0', '2'] from rfl,
        show (2 : Nat) = (['0', '2'] : List Char).length from rfl, List.take_left]
    · right
      rw [encodeCompressed, if_neg hpar, bytesToHex_data, List.flatMap_append,
        show ([3] : List Nat).flatMap byteToHex = ['0', '3'] from rfl,
        show (2 : Nat) = (['0', '3'] : List Char).length from rfl, List.take_left]

lemma genKeyPairAux_inv (fuel : Nat) :
    ∀ (rand : List Nat) (kp : ApiKeyPair),
      genKeyPairAux fuel rand = some kp →
      ∃ d, 1 ≤ d ∧ d ≤ nOrder - 1 ∧ derivedPubHexOf d = some kp.publicKey ∧
        kp.privateKey = bnToHexEven d := by
  induction fuel with
  | zero => intro rand kp h; cases h
  | succ fuel ih =>
    intro rand kp h
    rw [genKeyPairAux] at h
    split at h
    · cases h
    · dsimp only at h
      split at h
      · exact ih _ _ h
      · rename_i hcand
        have h2 : 2 ≤ nOrder := by decide
        obtain ⟨pub, hpub, hkp⟩ := Option.map_eq_some'.mp h
        refine ⟨bytesToNatBE (rand.take 32) + 1, by omega, by omega, ?_, ?_⟩
        · rw [← hkp]; exact hpub
        · rw [← hkp]

/-- C4 (amended): every generated pair has a 66-character compressed-form
public key (leading byte `02`/`03`), re-deriving the public key from the
private key yields exactly the public key, and the private key is the
minimal byte-aligned hex encoding of the scalar — even length and at most
64 characters, but not zero-padded to a fixed 64-character width. -/
theorem keygen_contract (rand : List Nat) (kp : ApiKeyPair)
    (h : generateApiKeyPair rand = some kp) :
    kp.publicKey.length = 66 ∧
    (kp.publicKey.data.take 2 = ['0', '2'] ∨ kp.publicKey.data.take 2 = ['0', '3']) ∧
    kp.privateKey.length % 2 = 0 ∧ kp.privateKey.length ≤ 64 ∧
    ∃ k, bnFromHex kp.privateKey = some k ∧
      derivedPubHexOf (k % nOrder) = some kp.publicKey := by
  obtain ⟨d, hd1, hd2, hderive, hprivkey⟩ := genKeyPairAux_inv _ _ _ h
  obtain ⟨hlen, htake, _⟩ := derivedPubHexOf_shape _ _ hderive
  have hd0 : d ≠ 0 := by omega
  have hdigits : (natHexDigitsLE d d).length ≤ 64 := by
    refine natHexDigitsLE_length_le d d 64 ?_
    have : nOrder < 16 ^ 64 := by decide
    omega
  have hml : (List.map hexDigitLower (natHexDigitsLE d d).reverse).length =
      (natHexDigitsLE d d).length := by simp
  have hprivlen : (bnToHexEven d).length % 2 = 0 ∧ (bnToHexEven d).length ≤ 64 := by
    rw [bnToHexEven]
    simp only [hd0, if_false, natHexMin]
    split <;> rename_i hpar <;> rw [hml] at hpar
    · constructor
      · show ('0' :: List.map hexDigitLower (natHexDigitsLE d d).reverse).length % 2 = 0
        rw [List.length_cons, hml]
        omega
      · show ('0' :: List.map hexDigitLower (natHexDigitsLE d d).reverse).length ≤ 64
        rw [List.length_cons, hml]
        omega
    · constructor
      · show (List.map hexDigitLower (natHexDigitsLE d d).reverse).length % 2 = 0
        rw [hml]
        omega
      · show (List.map hexDigitLower (natHexDigitsLE d d).reverse).length ≤ 64
        rw [hml]
        omega
  refine ⟨hlen, htake, by rw [hprivkey]; exact hprivlen.1, by rw [hprivkey]; exact hprivlen.2,
    d, ?_, ?_⟩
  · rw [hprivkey]; exact bnFromHex_bnToHexEven d
  · rw [Nat.mod_eq_of_lt (by omega)]
    exact hderive

/-- Counterexample to C4 as stated: the secure random source can draw the
scalar 1 (an all-zero 32-byte draw), and the resulting private key
serializes as `"01"` — 2 characters, not a fixed 64-character zero-padded
string. -/
theorem keygen_fixed_width_counterexample :
    generateApiKeyPair (List.replicate 32 0) =
      some ⟨"036b17d1f2e12c4247f8bce6e563a440f277037d812deb33a0f4a13945d898c296", "01"⟩ ∧
    ("01" : String).length ≠ 64 := by
  exact ⟨by decide, by decide⟩

/-- Witness for `keygen_contract` at a concrete random stream. -/
theorem keygen_contract_witness :
    ("036b17d1f2e12c4247f8bce6e563a440f277037d812deb33a0f4a13945d898c296" :
      String).length = 66 :=
  (keygen_contract (List.replicate 32 0)
    ⟨"036b17d1f2e12c4247f8bce6e563a440f277037d812deb33a0f4a13945d898c296", "01"⟩
    (by decide)).1

/-! ## Base64 structure lemmas (C7, C9) -/

lemma b64UrlSubst_b64Char_ne : ∀ n < 64,
    b64UrlSubst (b64Char n) ≠ '+' ∧ b64UrlSubst (b64Char n) ≠ '/' ∧
      b64UrlSubst (b64Char n) ≠ '=' := by
  decide

lemma b64UrlUnsubst_b64UrlSubst_b64Char : ∀ n < 64,
    b64UrlUnsubst (b64UrlSubst (b64Char n)) = b64Char n := by
  decide

lemma b64Value_b64Char : ∀ n < 64, b64Value (b64Char n) = n := by
  decide

lemma b64Char_ne_eq : ∀ n < 64, b64Char n ≠ '=' := by
  decide

lemma base64Encode_struct :
    ∀ (bytes : List Nat), (∀ b ∈ bytes, b < 256) →
      ∃ (core : List Char) (k : Nat),
        base64EncodeList bytes = core ++ List.replicate k '=' ∧ k ≤ 2 ∧
        (core.length + k) % 4 = 0 ∧
        ∀ c ∈ core, ∃ n, n < 64 ∧ c = b64Char n := by
  intro bytes
  induction bytes using base64EncodeList.induct with
  | case1 =>
    intro _
    exact ⟨[], 0, rfl, by omega, by simp, by simp⟩
  | case2 b1 =>
    intro h
    have hb1 : b1 < 256 := h b1 (by simp)
    refine ⟨[b64Char (b1 / 4), b64Char (b1 % 4 * 16)], 2, rfl, by omega, by simp, ?_⟩
    intro c hc
    rcases List.mem_cons.mp hc with h1 | h1
    · exact ⟨b1 / 4, by omega, h1⟩
    · rcases List.mem_cons.mp h1 with h2 | h2
      · exact ⟨b1 % 4 * 16, by omega, h2⟩
      · cases h2
  | case3 b1 b2 =>
    intro h
    have hb1 : b1 < 256 := h b1 (by simp)
    have hb2 : b2 < 256 := h b2 (by simp)
    refine ⟨[b64Char (b1 / 4), b64Char (b1 % 4 * 16 + b2 / 16), b64Char (b2 % 16 * 4)], 1,
      rfl, by omega, by simp, ?_⟩
    intro c hc
    rcases List.mem_cons.mp hc with h1 | h1
    · exact ⟨b1 / 4, by omega, h1⟩
    rcases List.mem_cons.mp h1 with h2 | h2
    · exact ⟨b1 % 4 * 16 + b2 / 16, by omega, h2⟩
    rcases List.mem_cons.mp h2 with h3 | h3
    · exact ⟨b2 % 16 * 4, by omega, h3⟩
    cases h3
  | case4 b1 b2 b3 rest ih =>
    intro h
    have hb1 : b1 < 256 := h b1 (by simp)
    have hb2 : b2 < 256 := h b2 (by simp)
    have hb3 : b3 < 256 := h b3 (by simp)
    obtain ⟨core, k, henc, hk, hmod, hmem⟩ := ih (fun b hb => h b (by simp [hb]))
    refine ⟨b64Char (b1 / 4) :: b64Char (b1 % 4 * 16 + b2 / 16) ::
      b64Char (b2 % 16 * 4 + b3 / 64) :: b64Char (b3 % 64) :: core, k, ?_, hk, ?_, ?_⟩
    · rw [base64EncodeList, henc]
      rfl
    · simp only [List.length_cons]
      omega
    · intro c hc
      rcases List.mem_cons.mp hc with h1 | h1
      · exact ⟨b1 / 4, by omega, h1⟩
      rcases List.mem_cons.mp h1 with h2 | h2
      · exact ⟨b1 % 4 * 16 + b2 / 16, by omega, h2⟩
      rcases List.mem_cons.mp h2 with h3 | h3
      · exact ⟨b2 % 16 * 4 + b3 / 64, by omega, h3⟩
      rcases List.mem_cons.mp h3 with h4 | h4
      · exact ⟨b3 % 64, by omega, h4⟩
      exact hmem c h4

lemma base64Decode_encode :
    ∀ (bytes : List Nat), (∀ b ∈ bytes, b < 256) →
      base64DecodeList (base64EncodeList bytes) = bytes := by
  intro bytes
  induction bytes using base64EncodeList.induct with
  | case1 => intro _; rfl
  | case2 b1 =>
    intro h
    have hb1 : b1 < 256 := h b1 (by simp)
    rw [base64EncodeList, base64DecodeList, if_pos rfl,
      b64Value_b64Char _ (by omega : b1 / 4 < 64),
      b64Value_b64Char _ (by omega : b1 % 4 * 16 < 64)]
    congr 1
    omega
  | case3 b1 b2 =>
    intro h
    have hb1 : b1 < 256 := h b1 (by simp)
    have hb2 : b2 < 256 := h b2 (by simp)
    rw [base64EncodeList, base64DecodeList,
      if_neg (b64Char_ne_eq _ (by omega : b2 % 16 * 4 < 64)), if_pos rfl,
      b64Value_b64Char _ (by omega : b1 / 4 < 64),
      b64Value_b64Char _ (by omega : b1 % 4 * 16 + b2 / 16 < 64),
      b64Value_b64Char _ (by omega : b2 % 16 * 4 < 64)]
    congr 1
    · omega
    · congr 1
      omega
  | case4 b1 b2 b3 rest ih =>
    intro h
    have hb1 : b1 < 256 := h b1 (by simp)
    have hb2 : b2 < 256 := h b2 (by simp)
    have hb3 : b3 < 256 := h b3 (by simp)
    rw [base64EncodeList, base64DecodeList,
      if_neg (b64Char_ne_eq _ (by omega : b2 % 16 * 4 + b3 / 64 < 64)),
      if_neg (b64Char_ne_eq _ (by omega : b3 % 64 < 64)),
      b64Value_b64Char _ (by omega : b1 / 4 < 64),
      b64Value_b64Char _ (by omega : b1 % 4 * 16 + b2 / 16 < 64),
      b64Value_b64Char _ (by omega : b2 % 16 * 4 + b3 / 64 < 64),
      b64Value_b64Char _ (by omega : b3 % 64 < 64),
      ih (fun b hb => h b (by simp [hb]))]
    congr 1
    · omega
    · congr 1
      · omega
      · congr 1
        omega

lemma dropWhile_replicate_append (k : Nat) (l : List Char) :
    List.dropWhile (fun c => c = '=') (List.replicate k '=' ++ l) =
      List.dropWhile (fun c => c = '=') l := by
  induction k with
  | zero => rfl
  | succ k ih =>
    rw [List.replicate_succ, List.cons_append, List.dropWhile_cons_of_pos (by simp)]
    exact ih

lemma stripTrailingEq_append_replicate (xs : List Char) (k : Nat) :
    stripTrailingEq (xs ++ List.replicate k '=') = stripTrailingEq xs := by
  rw [stripTrailingEq, stripTrailingEq, List.reverse_append, List.reverse_replicate,
    dropWhile_replicate_append]

lemma stripTrailingEq_of_no_eq (xs : List Char) (h : ∀ c ∈ xs, c ≠ '=') :
    stripTrailingEq xs = xs := by
  rw [stripTrailingEq]
  cases hx : xs.reverse with
  | nil =>
    have : xs = [] := by simpa using congrArg List.reverse hx
    simp [this]
  | cons a as =>
    have ha : a ∈ xs := List.mem_reverse.mp (hx ▸ List.mem_cons_self a as)
    rw [List.dropWhile_cons_of_neg (by simp [h a ha]), ← hx, List.reverse_reverse]

/-- Everything produced by `toBase64UrlBytes` on genuine bytes: the data is
the substituted core of the base64 encoding (all padding stripped, nothing
else), and the encoding record needed to invert it. -/
lemma toBase64UrlBytes_struct (bytes : List Nat) (h : ∀ b ∈ bytes, b < 256) :
    ∃ (core : List Char) (k : Nat),
      base64EncodeList bytes = core ++ List.replicate k '=' ∧ k ≤ 2 ∧
      (core.length + k) % 4 = 0 ∧
      (∀ c ∈ core, ∃ n, n < 64 ∧ c = b64Char n) ∧
      (toBase64UrlBytes bytes).data = core.map b64UrlSubst := by
  obtain ⟨core, k, henc, hk, hmod, hmem⟩ := base64Encode_struct bytes h
  refine ⟨core, k, henc, hk, hmod, hmem, ?_⟩
  show stripTrailingEq ((base64EncodeList bytes).map b64UrlSubst) = core.map b64UrlSubst
  rw [henc, List.map_append,
    show (List.replicate k '=').map b64UrlSubst = List.replicate k '=' by
      rw [List.map_replicate]; rfl,
    stripTrailingEq_append_replicate]
  refine stripTrailingEq_of_no_eq _ ?_
  intro c hc
  obtain ⟨c0, hc0, rfl⟩ := List.mem_map.mp hc
  obtain ⟨n, hn, rfl⟩ := hmem c0 hc0
  exact (b64UrlSubst_b64Char_ne n hn).2.2

/-- C7: base64url decoding is a left inverse of the base64url encoding on
byte buffers (the decoder pads internally before the standard base64
decode, so the stripped padding is tolerated). -/
theorem base64url_roundtrip (bytes : List Nat) (h : ∀ b ∈ bytes, b < 256) :
    fromBase64Url (toBase64UrlBytes bytes) = bytes := by
  obtain ⟨core, k, henc, hk, hmod, hmem, hdata⟩ := toBase64UrlBytes_struct bytes h
  rw [fromBase64Url, hdata]
  have hcs : (core.map b64UrlSubst).map b64UrlUnsubst = core := by
    rw [List.map_map]
    refine (List.map_congr_left ?_).trans (List.map_id core)
    intro c hc
    obtain ⟨n, hn, rfl⟩ := hmem c hc
    exact b64UrlUnsubst_b64UrlSubst_b64Char n hn
  rw [hcs]
  have hkpad : (4 - core.length % 4) % 4 = k := by omega
  rw [hkpad, ← henc]
  exact base64Decode_encode bytes h

/-- Witness for `base64url_roundtrip` at a concrete buffer. -/
theorem base64url_roundtrip_witness : fromBase64Url (toBase64UrlBytes [0, 77, 255]) = [0, 77, 255] :=
  base64url_roundtrip [0, 77, 255] (by decide)

/-! ## `unescape ∘ encodeURIComponent` is UTF-8 (C8, C9) -/

lemma char_toNat_lt (c : Char) : c.toNat < 1114112 := by
  rcases c.valid with h | ⟨_, h⟩ <;>
    exact Nat.lt_of_lt_of_le h (by norm_num)

lemma utf8EncodeChar_lt (n : Nat) (hn : n < 1114112) :
    ∀ b ∈ utf8EncodeChar n, b < 256 := by
  intro b hb
  rw [utf8EncodeChar] at hb
  split at hb
  · simp only [List.mem_cons, List.not_mem_nil, or_false] at hb
    omega
  · split at hb
    · simp only [List.mem_cons, List.not_mem_nil, or_false] at hb
      rcases hb with h | h <;> omega
    · split at hb
      · simp only [List.mem_cons, List.not_mem_nil, or_false] at hb
        rcases hb with h | h | h <;> omega
      · simp only [List.mem_cons, List.not_mem_nil, or_false] at hb
        rcases hb with h | h | h | h <;> omega

lemma utf8Bytes_lt (s : String) : ∀ b ∈ utf8Bytes s, b < 256 := by
  intro b hb
  rw [utf8Bytes] at hb
  obtain ⟨c, _, hc⟩ := List.mem_flatMap.mp hb
  exact utf8EncodeChar_lt c.toNat (char_toNat_lt c) b hc

lemma toNat_ofNat_lt : ∀ b < 256, (Char.ofNat b).toNat = b := by
  decide

lemma hexDigitUpper_ne_u : ∀ d < 16, hexDigitUpper d ≠ 'u' := by
  decide

lemma isHex_hexDigitUpper : ∀ d < 16, isHexDigitChar (hexDigitUpper d) = true := by
  decide

lemma hexValD_hexDigitUpper : ∀ d < 16, hexValD (hexDigitUpper d) = d := by
  decide

lemma uriUnreserved_lt (c : Char) (h : uriUnreserved c = true) : c.toNat < 128 := by
  rw [uriUnreserved] at h
  simp only [Bool.or_eq_true, Bool.and_eq_true, decide_eq_true_eq, beq_iff_eq] at h
  omega

lemma uriUnreserved_ne_pct (c : Char) (h : uriUnreserved c = true) : c ≠ '%' := by
  intro heq
  subst heq
  exact absurd h (by decide)

lemma unescapeChars_cons_of_ne (c : Char) (t : List Char) (hc : c ≠ '%') :
    unescapeChars (c :: t) = c :: unescapeChars t := by
  rw [unescapeChars.eq_def]
  split
  · rename_i heq
    cases heq
  · rename_i heq
    exact absurd (List.cons.inj heq).1 hc
  · rename_i heq
    exact absurd (List.cons.inj heq).1 hc
  · rename_i heq
    obtain ⟨rfl, rfl⟩ := List.cons.inj heq
    rfl

lemma unescapeChars_pct (b : Nat) (hb : b < 256) (t : List Char) :
    unescapeChars ('%' :: hexDigitUpper (b / 16 % 16) :: hexDigitUpper (b % 16) :: t) =
      Char.ofNat b :: unescapeChars t := by
  have h16a : b / 16 % 16 < 16 := Nat.mod_lt _ (by omega)
  have h16b : b % 16 < 16 := Nat.mod_lt _ (by omega)
  rw [unescapeChars.eq_def]
  split
  · rename_i heq
    cases heq
  · rename_i heq
    have h2 := (List.cons.inj heq).2
    exact absurd (List.cons.inj h2).1 (hexDigitUpper_ne_u _ h16a)
  · rename_i heq
    obtain ⟨-, heq2⟩ := List.cons.inj heq
    obtain ⟨ha, heq3⟩ := List.cons.inj heq2
    obtain ⟨hb2, hrest⟩ := List.cons.inj heq3
    subst ha
    subst hb2
    subst hrest
    rw [if_pos (by rw [isHex_hexDigitUpper _ h16a, isHex_hexDigitUpper _ h16b]; rfl),
      hexValD_hexDigitUpper _ h16a, hexValD_hexDigitUpper _ h16b]
    have hv : b / 16 % 16 * 16 + b % 16 = b := by omega
    rw [hv]
  · rename_i hno heq
    exfalso
    obtain ⟨h1, h2⟩ := List.cons.inj heq
    exact hno (hexDigitUpper (b / 16 % 16)) (hexDigitUpper (b % 16)) t h1.symm h2.symm

lemma unescape_enc_char (c : Char) (t : List Char) :
    unescapeChars (encodeURIComponentChar c ++ t) =
      (utf8EncodeChar c.toNat).map Char.ofNat ++ unescapeChars t := by
  rw [encodeURIComponentChar]
  split
  · rename_i hres
    have h128 : c.toNat < 128 := uriUnreserved_lt c hres
    rw [List.cons_append, List.nil_append,
      unescapeChars_cons_of_ne c t (uriUnreserved_ne_pct c hres),
      utf8EncodeChar, if_pos h128, List.map_cons, List.map_nil, List.cons_append,
      List.nil_append, Char.ofNat_toNat]
  · have hlt : ∀ b ∈ utf8EncodeChar c.toNat, b < 256 :=
      utf8EncodeChar_lt c.toNat (char_toNat_lt c)
    generalize utf8EncodeChar c.toNat = bs at hlt ⊢
    induction bs with
    | nil => simp
    | cons b bs ih =>
      have hb : b < 256 := hlt b (List.mem_cons_self _ _)
      rw [List.flatMap_cons]
      show unescapeChars ('%' :: hexDigitUpper (b / 16 % 16) :: hexDigitUpper (b % 16) ::
        (bs.flatMap (fun b => ['%', hexDigitUpper (b / 16 % 16), hexDigitUpper (b % 16)]) ++ t)) = _
      rw [unescapeChars_pct b hb, ih (fun u hu => hlt u (List.mem_cons_of_mem _ hu)),
        List.map_cons, List.cons_append]

lemma unescape_encodeURI (cs : List Char) :
    unescapeChars (encodeURIComponentChars cs) =
      cs.flatMap (fun c => (utf8EncodeChar c.toNat).map Char.ofNat) := by
  induction cs with
  | nil => rfl
  | cons c cs ih =>
    rw [encodeURIComponentChars, List.flatMap_cons, List.flatMap_cons]
    rw [show cs.flatMap encodeURIComponentChar = encodeURIComponentChars cs from rfl]
    rw [unescape_enc_char, ih]

lemma latin1_codes (s : String) :
    (unescapeChars (encodeURIComponentChars s.data)).map Char.toNat = utf8Bytes s := by
  rw [unescape_encodeURI, utf8Bytes]
  have hfun : ∀ c : Char,
      ((utf8EncodeChar c.toNat).map Char.ofNat).map Char.toNat = utf8EncodeChar c.toNat := by
    intro c
    rw [List.map_map]
    refine (List.map_congr_left ?_).trans (List.map_id _)
    intro b hb
    exact toNat_ofNat_lt b (utf8EncodeChar_lt c.toNat (char_toNat_lt c) b hb)
  rw [List.map_flatMap]
  congr 1
  funext c
  exact hfun c

/-- The two base64url entry points agree whenever the byte content agrees:
`toBase64Url` on a string equals `toBase64UrlBytes` on its UTF-8 bytes,
because `unescape(encodeURIComponent(str))` is exactly the latin-1 string of
the UTF-8 bytes. -/
lemma toBase64Url_eq (s : String) : toBase64Url s = toBase64UrlBytes (utf8Bytes s) := by
  rw [toBase64Url, toBase64UrlBytes, latin1_codes]

/-- C8: the string-based entry point equals the buffer-based one applied to
the fixed UTF-8 encoding of the string. -/
theorem base64url_entrypoints_agree (s : String) :
    toBase64Url s = toBase64UrlBytes (utf8Bytes s) :=
  toBase64Url_eq s

/-- C9: base64url output never contains `+`, `/` or `=` — neither for byte
buffers (`toBase64UrlBytes`) nor for strings (`toBase64Url`). -/
theorem base64url_no_forbidden_chars :
    (∀ (bytes : List Nat), (∀ b ∈ bytes, b < 256) →
      ∀ c ∈ (toBase64UrlBytes bytes).data, c ≠ '+' ∧ c ≠ '/' ∧ c ≠ '=') ∧
    ∀ (s : String), ∀ c ∈ (toBase64Url s).data, c ≠ '+' ∧ c ≠ '/' ∧ c ≠ '=' := by
  have hbytes : ∀ (bytes : List Nat), (∀ b ∈ bytes, b < 256) →
      ∀ c ∈ (toBase64UrlBytes bytes).data, c ≠ '+' ∧ c ≠ '/' ∧ c ≠ '=' := by
    intro bytes h c hc
    obtain ⟨core, k, henc, hk, hmod, hmem, hdata⟩ := toBase64UrlBytes_struct bytes h
    rw [hdata] at hc
    obtain ⟨c0, hc0, rfl⟩ := List.mem_map.mp hc
    obtain ⟨n, hn, rfl⟩ := hmem c0 hc0
    exact b64UrlSubst_b64Char_ne n hn
  refine ⟨hbytes, ?_⟩
  intro s c hc
  rw [toBase64Url_eq] at hc
  exact hbytes (utf8Bytes s) (utf8Bytes_lt s) c hc

/-- Witness for `base64url_no_forbidden_chars` at a concrete byte. -/
theorem base64url_no_forbidden_chars_witness : 'A' ≠ '+' ∧ 'A' ≠ '/' ∧ 'A' ≠ '=' :=
  base64url_no_forbidden_chars.1 [0] (by decide) 'A' (by decide)

/-! ## Successful-sign inversion (C2, C5) -/

lemma sign_ok_inv (payload priv pub : String) (res : SignResult)
    (h : signPayloadWithApiKey payload priv pub = .ok res) :
    ∃ k, bnFromHex priv = some k ∧
      derivedPubHexOf (k % nOrder) = some pub ∧
      ∃ rs : Nat × Nat, ecSign (k % nOrder) (sha256hex payload) = some rs ∧
        res = ⟨toBase64Url (stringifyStamp pub (sigToDERHex rs.1 rs.2)),
          ⟨pub, schemeString, sigToDERHex rs.1 rs.2, sha256hex payload⟩⟩ := by
  rw [signPayloadWithApiKey] at h
  split at h
  · cases h
  · split at h
    · cases h
    · rename_i k hk
      dsimp only at h
      split at h
      · cases h
      · rename_i D hD
        split at h
        · cases h
        · rename_i hne
          have hDpub : D = pub := not_not.mp hne
          subst hDpub
          split at h
          · cases h
          · rename_i rs hrs
            refine ⟨k, hk, hD, rs, hrs, ?_⟩
            exact (Except.ok.inj h).symm

lemma jsonEscapeChar_of_hex (c : Char) (h : isLowerHexChar c = true) :
    jsonEscapeChar c = [c] := by
  rw [isLowerHexChar] at h
  simp only [Bool.or_eq_true, Bool.and_eq_true, decide_eq_true_eq] at h
  have h34 : c ≠ '"' := fun heq => by subst heq; revert h; decide
  have h92 : c ≠ '\\' := fun heq => by subst heq; revert h; decide
  rw [jsonEscapeChar, if_neg h34, if_neg h92, if_neg (by omega), if_neg (by omega),
    if_neg (by omega), if_neg (by omega), if_neg (by omega), if_neg (by omega)]

lemma flatMap_jsonEscape_id : ∀ (l : List Char), (∀ c ∈ l, isLowerHexChar c = true) →
    l.flatMap jsonEscapeChar = l := by
  intro l
  induction l with
  | nil => intro _; rfl
  | cons c cs ih =>
    intro h
    rw [List.flatMap_cons, jsonEscapeChar_of_hex c (h c (List.mem_cons_self _ _)),
      ih (fun u hu => h u (List.mem_cons_of_mem _ hu)), List.singleton_append]

lemma jsonQuote_of_hex (s : String) (h : ∀ c ∈ s.data, isLowerHexChar c = true) :
    jsonQuote s = "\"" ++ s ++ "\"" := by
  rw [jsonQuote, flatMap_jsonEscape_id s.data h]

lemma sigToDERHex_isLowerHex (r s : Nat) :
    ∀ c ∈ (sigToDERHex r s).data, isLowerHexChar c = true :=
  bytesToHex_isLowerHex _

/-- C2: every successful `sign` call returns the transport signature as the
base64url encoding of the `JSON.stringify` serialization of the envelope
(keys in the stable order `publicKey`, `scheme`, `signature`, with the
fixed scheme string and the DER hex signature produced by the ECDSA step),
and a details record carrying the untransformed public key, scheme, DER hex
and payload digest. -/
theorem sign_success_envelope (payload priv pub : String) (res : SignResult)
    (h : signPayloadWithApiKey payload priv pub = .ok res) :
    res.details.publicKey = pub ∧
    res.details.scheme = "SIGNATURE_SCHEME_TK_API_P256" ∧
    res.details.payloadHash = sha256hex payload ∧
    (∃ k, bnFromHex priv = some k ∧
      ∃ rs : Nat × Nat, ecSign (k % nOrder) (sha256hex payload) = some rs ∧
        res.details.signature = sigToDERHex rs.1 rs.2) ∧
    res.signature = toBase64Url (stringifyStamp pub res.details.signature) ∧
    stringifyStamp pub res.details.signature =
      "\x7b\"publicKey\":" ++ ("\"" ++ pub ++ "\"") ++ ",\"scheme\":" ++
        "\"SIGNATURE_SCHEME_TK_API_P256\"" ++ ",\"signature\":" ++
        ("\"" ++ res.details.signature ++ "\"") ++ "\x7d" := by
  obtain ⟨k, hk, hD, rs, hrs, hres⟩ := sign_ok_inv _ _ _ _ h
  have hpubhex : ∀ c ∈ pub.data, isLowerHexChar c = true :=
    (derivedPubHexOf_shape _ _ hD).2.2
  subst hres
  refine ⟨rfl, rfl, rfl, ⟨k, hk, rs, hrs, rfl⟩, rfl, ?_⟩
  show stringifyStamp pub (sigToDERHex rs.1 rs.2) = _
  rw [stringifyStamp, jsonQuote_of_hex pub hpubhex,
    jsonQuote_of_hex _ (sigToDERHex_isLowerHex rs.1 rs.2),
    show jsonQuote schemeString = "\"SIGNATURE_SCHEME_TK_API_P256\"" by decide]

/-- Witness for `sign_success_envelope` at a concrete successful call. -/
theorem sign_success_envelope_witness :
    helloSignResult.details.publicKey = gPubHex ∧
    helloSignResult.details.scheme = "SIGNATURE_SCHEME_TK_API_P256" ∧
    helloSignResult.details.payloadHash = sha256hex "hello" := by
  have h : signPayloadWithApiKey "hello" "01" gPubHex = .ok helloSignResult := by decide
  have hc := sign_success_envelope "hello" "01" gPubHex helloSignResult h
  exact ⟨hc.1, hc.2.1, hc.2.2.1⟩

/-! ## Canonical low-S form (C5) -/

lemma canonical_lowS (s : Nat) (hs : s < nOrder) :
    2 * (if nOrder / 2 < s then nOrder - s else s) < nOrder := by
  have hodd : nOrder % 2 = 1 := by decide
  split <;> omega

lemma ecSignLoop_lowS (fuel : Nat) :
    ∀ (d m : Nat) (st : DrbgState) (rs : Nat × Nat),
      ecSignLoop fuel d m st = some rs → 2 * rs.2 < nOrder := by
  induction fuel with
  | zero => intro d m st rs h; cases h
  | succ fuel ih =>
    intro d m st rs h
    rw [ecSignLoop] at h
    dsimp only at h
    split at h
    · exact ih _ _ _ _ h
    · split at h
      · exact ih _ _ _ _ h
      · split at h
        · exact ih _ _ _ _ h
        · split at h
          · exact ih _ _ _ _ h
          · have h2 := Option.some.inj h
            rw [← h2]
            exact canonical_lowS _ (Nat.mod_lt _ (by decide))

/-- C5: the ECDSA signature behind every successful `sign` call is in
canonical low-S form — the `s` component lies in the lower half of the
curve order (`2 * s < n`), as enforced by the `canonical: true` option
(`s := n - s` whenever `s` exceeds `n >> 1`). -/
theorem sign_canonical_low_s (payload priv pub : String) (res : SignResult) (k : Nat)
    (h : signPayloadWithApiKey payload priv pub = .ok res)
    (hk : bnFromHex priv = some k) :
    ∃ rs : Nat × Nat, ecSign (k % nOrder) (sha256hex payload) = some rs ∧
      res.details.signature = sigToDERHex rs.1 rs.2 ∧ 2 * rs.2 < nOrder := by
  obtain ⟨k', hk', hD, rs, hrs, hres⟩ := sign_ok_inv _ _ _ _ h
  have hkk : k' = k := by
    rw [hk] at hk'
    exact (Option.some.inj hk').symm
  subst hkk
  refine ⟨rs, hrs, by rw [hres], ?_⟩
  rw [ecSign] at hrs
  split at hrs
  · cases hrs
  · dsimp only at hrs
    exact ecSignLoop_lowS _ _ _ _ _ hrs

/-- Witness for `sign_canonical_low_s` at a concrete successful call. -/
theorem sign_canonical_low_s_witness :
    ∃ rs : Nat × Nat, ecSign (1 % nOrder) (sha256hex "hello") = some rs ∧
      helloSignResult.details.signature = sigToDERHex rs.1 rs.2 ∧ 2 * rs.2 < nOrder := by
  have h : signPayloadWithApiKey "hello" "01" gPubHex = .ok helloSignResult := by decide
  exact sign_canonical_low_s "hello" "01" gPubHex helloSignResult 1 h (by decide)

/-- Witness for `sign_deterministic` at a concrete successful call. -/
theorem sign_deterministic_witness :
    helloSignResult.signature = helloSignResult.signature ∧
    helloSignResult.details = helloSignResult.details := by
  have h : signPayloadWithApiKey "hello" "01" gPubHex = .ok helloSignResult := by decide
  exact sign_deterministic "hello" "01" gPubHex helloSignResult helloSignResult h h

end Crypto
